import Mathlib

/-!
Verification of the trie container of the `tilde-imports` repository.

The tries of `src/src/utils/trie-map.js` and `src/src/utils/trie.ts` store
their nodes as plain JavaScript objects: a node is a string-keyed object
whose non-sentinel keys map to child nodes and whose sentinel key
(`String.fromCharCode(0)`) holds the terminal payload.  Object keys are
strings in JavaScript, in string mode as well as in array mode, so token
sequences are modelled as `List String`.

Because several methods of `trie-map.js` can throw (`delete` reads an
undeclared variable, `prefixes`/`entries` likewise, and the `in` operator
or a property write on a primitive value throws a TypeError), fallible
operations return `Except JSError`.
-/

namespace TildeImports

/-- Errors thrown by the modelled JavaScript code: reading or assigning an
undeclared identifier in strict mode (`ReferenceError`), using the `in`
operator or writing a property on a primitive value (`TypeError`), and an
explicit `throw new Error(...)` (`thrown`). -/
inductive JSError where
  | referenceError
  | typeError
  | thrown
deriving DecidableEq, Repr

/-- A JavaScript value as used by the trie code: either a plain object
(an insertion-ordered list of string-keyed properties) or a primitive
payload value of type `V` (the trie stores payloads at the sentinel key;
the set-like variant always stores the primitive `true`). -/
inductive JS (V : Type) where
  | obj : List (String × JS V) → JS V
  | val : V → JS V

/-- The reserved sentinel key, `String.fromCharCode(0)`
(trie-map.js line 14, trie.ts line 16). -/
def SENTINEL : String := "\x00"

/-- Property lookup in an object's entry list (first occurrence). -/
def lookupKey {V : Type} : List (String × JS V) → String → Option (JS V)
  | [], _ => none
  | (k, c) :: rest, q => if k = q then some c else lookupKey rest q

/-- Property assignment on an object's entry list: an existing key keeps
its position and gets the new value, a new key is appended at the end
(JavaScript property creation order). -/
def storeKey {V : Type} : List (String × JS V) → String → JS V → List (String × JS V)
  | [], q, x => [(q, x)]
  | (k, c) :: rest, q, x => if k = q then (q, x) :: rest else (k, c) :: storeKey rest q x

/-- The `k in node` test restricted to an entry list. -/
def keyPresent {V : Type} (es : List (String × JS V)) (q : String) : Bool :=
  (lookupKey es q).isSome

/-- Property read `node[q]`: on an object, the stored entry or `undefined`
(`none`); on a primitive such as `true`, every property reads as
`undefined`. -/
def JS.read {V : Type} : JS V → String → Option (JS V)
  | .obj es, q => lookupKey es q
  | .val _, _ => none

/-- JavaScript truthiness: objects are truthy, a primitive payload is
judged by the payload-truthiness function `tv` (for the set-like variant,
`V = Bool` and `tv` is the identity). -/
def JS.truthy {V : Type} (tv : V → Bool) : JS V → Bool
  | .obj _ => true
  | .val v => tv v

/-- The `q in node` operator: key presence on an object, a `TypeError`
on a primitive value. -/
def JS.hasKey {V : Type} : JS V → String → Except JSError Bool
  | .obj es, q => .ok (keyPresent es q)
  | .val _, _ => .error .typeError

/-- Construction mode (trie-map.js line 32): `new TrieMap(Array)` selects
array mode, anything else string mode.  The mode is only consulted when
`prefixes`/`entries` rebuild key sequences, and both of those throw before
reading it, so no modelled operation depends on it. -/
inductive TrieMode where
  | string
  | array
deriving DecidableEq, Repr

/-- The `TrieMap` state: the root object and the cached `size`
(trie-map.js lines 31-44). -/
structure TrieMap (V : Type) where
  mode : TrieMode
  root : JS V
  size : Nat

/-- A freshly constructed trie: `clear()` sets an empty root object and
size 0 (trie-map.js lines 41-44). -/
def TrieMap.new (V : Type) (mode : TrieMode) : TrieMap V :=
  ⟨mode, .obj [], 0⟩

/-- The `clear` method (trie-map.js lines 41-44). -/
def TrieMap.clear {V : Type} (t : TrieMap V) : TrieMap V :=
  { t with root := .obj [], size := 0 }

/-- Walk of `has` (trie-map.js lines 171-183): `node = node[token]`,
returning `false` as soon as a read yields `undefined`; at the end the
test `SENTINEL in node`, which throws a TypeError if the walk ended on a
primitive value. -/
def hasGo {V : Type} : JS V → List String → Except JSError Bool
  | node, [] => node.hasKey SENTINEL
  | node, tok :: rest =>
    match node.read tok with
    | none => .ok false
    | some c => hasGo c rest

/-- The `has` method (trie-map.js lines 171-183). -/
def TrieMap.has {V : Type} (t : TrieMap V) (p : List String) : Except JSError Bool :=
  hasGo t.root p

/-- Shared walk of `set` (trie-map.js lines 53-69) and `update` (lines
78-94), which differ only in the value assigned at the end: `set` stores
a given value, `update` stores `updateFunction(node[SENTINEL])`.  The
walk is `node = node[token] || (node[token] = {})`: a truthy existing
entry is entered, otherwise a fresh empty object is written first.
Entering a truthy primitive makes the next property write (or the final
`SENTINEL in node` test) throw a TypeError; a throw can only happen
before any write, because every written node is a fresh object.  Returns
the rewritten subtree and whether `size` must be incremented
(`!(SENTINEL in node)` at the final node). -/
def storeCore {V : Type} (tv : V → Bool) (mk : Option (JS V) → V) :
    JS V → List String → Except JSError (JS V × Bool)
  | .val _, [] => .error .typeError
  | .obj es, [] =>
    .ok (.obj (storeKey es SENTINEL (.val (mk (lookupKey es SENTINEL)))),
      !(keyPresent es SENTINEL))
  | .val _, _ :: _ => .error .typeError
  | .obj es, tok :: rest =>
    let child : JS V :=
      match lookupKey es tok with
      | some c => if c.truthy tv then c else .obj []
      | none => .obj []
    match storeCore tv mk child rest with
    | .error e => .error e
    | .ok (c2, inc) => .ok (.obj (storeKey es tok c2), inc)

/-- The `set` method (trie-map.js lines 53-69). -/
def TrieMap.set {V : Type} (tv : V → Bool) (t : TrieMap V) (p : List String) (v : V) :
    Except JSError (TrieMap V) :=
  match storeCore tv (fun _ => v) t.root p with
  | .error e => .error e
  | .ok (r, inc) => .ok { t with root := r, size := t.size + (if inc then 1 else 0) }

/-- The `update` method (trie-map.js lines 78-94): same walk as `set`,
storing `f` applied to the previous sentinel slot (`undefined` when
absent). -/
def TrieMap.update {V : Type} (tv : V → Bool) (t : TrieMap V) (p : List String)
    (f : Option (JS V) → V) : Except JSError (TrieMap V) :=
  match storeCore tv f t.root p with
  | .error e => .error e
  | .ok (r, inc) => .ok { t with root := r, size := t.size + (if inc then 1 else 0) }

/-- Walk of `get` (trie-map.js lines 103-118): returns `undefined` as
soon as a read yields `undefined`; at the end, `SENTINEL in node`
(TypeError on a primitive) and then the sentinel slot's value, which the
lookup itself already renders as `none` when the key is absent. -/
def getGo {V : Type} : JS V → List String → Except JSError (Option (JS V))
  | node, [] =>
    match node with
    | .val _ => .error .typeError
    | .obj es => .ok (lookupKey es SENTINEL)
  | node, tok :: rest =>
    match node.read tok with
    | none => .ok none
    | some c => getGo c rest

/-- The `get` method (trie-map.js lines 103-118). -/
def TrieMap.get {V : Type} (t : TrieMap V) (p : List String) :
    Except JSError (Option (JS V)) :=
  getGo t.root p

/-- The `delete` method (trie-map.js lines 126-163).  Its loop header is
`for (let i = 0; prefix.length < l; i++)` and `l` is never declared, so
evaluating the loop condition throws a ReferenceError on every call — in
class code (strict mode) reading an undeclared identifier throws — before
any mutation of the tree or of `size`.  (Even under a hypothetical
legacy-global reading of `l` the loop body would never run and the call
would wrongly report on the root's own sentinel slot.)  The intended
return type is the deletion flag together with the updated trie. -/
def TrieMap.delete {V : Type} (_t : TrieMap V) (_p : List String) :
    Except JSError (Bool × TrieMap V) :=
  .error .referenceError

/-- Walk to the node reached by a key sequence by plain reads, as done at
the start of `find`/`values` (`node = node[token]`, `undefined` check). -/
def walk {V : Type} : JS V → List String → Option (JS V)
  | node, [] => some node
  | node, tok :: rest =>
    match node.read tok with
    | none => none
    | some c => walk c rest

/-- What a call to `values` (trie-map.js lines 234-274) actually returns:
either the genuine empty iterator `[][Symbol.iterator]()` when the
starting key sequence does not resolve, or — through the final
`return function* () {...}` — the generator function itself, never
invoked, closing over the node stack.  The returned value is therefore
not an iterator: it has no `next` method and is not iterable. -/
inductive ValuesReturn (V : Type) where
  | emptyIterator
  | generatorFunction (nodeStack : List (JS V))

/-- The `values` method (trie-map.js lines 234-274).  A `none` argument
models both an omitted starting sequence and the falsy empty string. -/
def TrieMap.values {V : Type} (t : TrieMap V) (pfx : Option (List String)) :
    ValuesReturn V :=
  match pfx with
  | none => .generatorFunction [t.root]
  | some p =>
    match walk t.root p with
    | none => .emptyIterator
    | some n => .generatorFunction [n]

/-- The `prefixes` method (trie-map.js lines 282-331).  Its second line is
`(nodeStack = []), (prefixStack = []), token, i, l;` with none of those
identifiers declared, so the very first assignment throws a
ReferenceError in strict (class) code, before the starting sequence is
even considered.  `keys` is `prefixes` bound (line 392), so it throws in
the same way.  The intended result type is the list of key sequences the
generator would yield. -/
def TrieMap.prefixes {V : Type} (_t : TrieMap V) (_pfx : Option (List String)) :
    Except JSError (List (List String)) :=
  .error .referenceError

/-- The `entries` method (trie-map.js lines 339-390).  It is declared with
no parameter at all, yet line 348 tests `if (prefix)`, reading an
undeclared identifier, which throws a ReferenceError on every call. -/
def TrieMap.entries {V : Type} (_t : TrieMap V) :
    Except JSError (List (List String × JS V)) :=
  .error .referenceError

/-- The set-like trie of trie.ts: the payload type is `Bool` and the only
payload ever stored is `true`. -/
abbrev Trie := TrieMap Bool

/-- The `add` method of trie.ts (lines 41-56).  It performs exactly the
`set` walk with the fixed value `true`: walk with
`node = node[token] || (node[token] = {})`, then
`if (!(SENTINEL in node)) this.size++; node[SENTINEL] = true`. -/
def Trie.add (t : Trie) (p : List String) : Except JSError Trie :=
  TrieMap.set (fun b => b) t p true

/-- Truthiness of `node[SENTINEL]` for the set-like trie, as tested by
`getPrefixes` (trie.ts line 72): `undefined` (absent key, or any property
of a primitive) is falsy, a stored Bool is its own truth value, an object
sitting at the sentinel key would be truthy. -/
def sentTruthy (c : JS Bool) : Bool :=
  match c.read SENTINEL with
  | some x => x.truthy (fun b => b)
  | none => false

/-- Loop of `getPrefixes` (trie.ts lines 61-76): walk the query tokens,
stop and return what was collected the moment a read yields `undefined`,
and push `value.slice(0, i + 1)` — rebuilt here as the accumulated path —
whenever the node just entered has a truthy sentinel slot. -/
def getPrefixesGo : JS Bool → List String → List String → List (List String)
  | _, _, [] => []
  | node, acc, tok :: rest =>
    match node.read tok with
    | none => []
    | some c =>
      (if sentTruthy c then [acc ++ [tok]] else []) ++ getPrefixesGo c (acc ++ [tok]) rest

/-- The `getPrefixes` method (trie.ts lines 61-76). -/
def Trie.getPrefixes (t : Trie) (value : List String) : List (List String) :=
  getPrefixesGo t.root [] value

/-- One `for (k in node)` pass of the DFS of `find` (trie.ts lines
101-114): in entry order, a sentinel key appends the popped path to the
matches, any other key records the child together with the extended path
for pushing onto the stack. -/
def scanEntries {V : Type} (pre : List String) :
    List (String × JS V) → List (List String) × List (JS V × List String)
  | [] => ([], [])
  | (k, c) :: rest =>
    if k = SENTINEL then (pre :: (scanEntries pre rest).1, (scanEntries pre rest).2)
    else ((scanEntries pre rest).1, (c, pre ++ [k]) :: (scanEntries pre rest).2)

/-- The `for (k in node)` pass on an arbitrary value: a primitive has no
enumerable properties, so the loop body never runs. -/
def scanNode {V : Type} : JS V → List String → List (List String) × List (JS V × List String)
  | .obj es, pre => scanEntries pre es
  | .val _, _ => ([], [])

mutual

/-- Number of constructors of a modelled JavaScript value; only used as a
termination measure. -/
def jsSize {V : Type} : JS V → Nat
  | .val _ => 1
  | .obj es => 1 + entsSize es

/-- Total size of the values of an entry list. -/
def entsSize {V : Type} : List (String × JS V) → Nat
  | [] => 0
  | (_, c) :: rest => 1 + jsSize c + entsSize rest

end

/-- Total tree size of the nodes on a DFS stack; used as the termination
measure of the stack loop. -/
def stackMeasure {V : Type} (stack : List (JS V × List String)) : Nat :=
  (stack.map (fun np => jsSize np.1)).sum

/-- The DFS stack loop of `find` (trie.ts lines 101-114).  The JavaScript
arrays are used LIFO (`push`/`pop`), so the head of the list here is the
top of the stack and the children of a popped node, pushed in entry
order, are visited in reverse entry order — hence `.reverse` when they go
on top of the stack.  Matches are appended in visit order. -/
def findLoop {V : Type} :
    List (JS V × List String) → List (List String) → List (List String)
  | [], ms => ms
  | (node, pre) :: rest, ms =>
    findLoop ((scanNode node pre).2.reverse ++ rest) (ms ++ (scanNode node pre).1)
termination_by stack _ => stackMeasure stack
decreasing_by
  have hle : ∀ es : List (String × JS V), stackMeasure (scanEntries pre es).2 ≤ entsSize es := by
    intro es
    induction es with
    | nil => simp [scanEntries, stackMeasure]
    | cons e rest2 ih =>
      obtain ⟨k, c⟩ := e
      by_cases hk : k = SENTINEL
      · have h2 : (scanEntries pre ((k, c) :: rest2)).2 = (scanEntries pre rest2).2 := by
          simp [scanEntries, hk]
        rw [h2, entsSize]
        omega
      · have h2 : (scanEntries pre ((k, c) :: rest2)).2
            = (c, pre ++ [k]) :: (scanEntries pre rest2).2 := by
          simp [scanEntries, hk]
        rw [h2, entsSize]
        simp only [stackMeasure, List.map_cons, List.sum_cons] at ih ⊢
        omega
  have h : stackMeasure (scanNode node pre).2 < jsSize node := by
    cases node with
    | val v => simp [scanNode, stackMeasure, jsSize]
    | obj es =>
      have h3 := hle es
      simp only [scanNode, jsSize]
      omega
  simp only [stackMeasure, List.map_append, List.sum_append, List.map_cons,
    List.sum_cons, List.map_reverse, List.sum_reverse] at h ⊢
  omega

/-- The `find` method of the set-like trie (trie.ts lines 82-117): walk
to the node reached by the query (empty result if a read yields
`undefined`), then run the explicit-stack DFS from that node, seeded with
the original query as the path. -/
def Trie.find (t : Trie) (pre : List String) : List (List String) :=
  match walk t.root pre with
  | none => []
  | some node => findLoop [(node, pre)] []

/-- Key list of an entry list, with no duplicates, as a Bool. -/
def keysNodupB {V : Type} : List (String × JS V) → Bool
  | [] => true
  | (k, _) :: rest => !(keyPresent rest k) && keysNodupB rest

mutual

/-- Well-formedness of a node, the structural reading of the spec's data
model (spec section 3): keys are not duplicated, the sentinel key holds a
primitive payload satisfying `pv` (for the set-like trie, the payload
`true`), and every other key holds a well-formed object.  A primitive
value is well-formed when its payload satisfies `pv`, so that the entry
sitting at a sentinel key is itself well-formed. -/
def WFb {V : Type} (pv : V → Bool) : JS V → Bool
  | .val v => pv v
  | .obj es => keysNodupB es && entsWFb pv es

/-- Well-formedness of an entry list; see `WFb`. -/
def entsWFb {V : Type} (pv : V → Bool) : List (String × JS V) → Bool
  | [] => true
  | (k, c) :: rest =>
    (if k = SENTINEL then
      match c with
      | .val v => pv v
      | .obj _ => false
    else
      match c with
      | .obj _ => WFb pv c
      | .val _ => false)
    && entsWFb pv rest

end

/-- Structural membership of a key sequence: the path exists through
plain reads and the final node is an object carrying the sentinel key.
Under well-formedness this coincides with `has` returning `ok true`
(proved below); unlike `has` it never throws. -/
def storedB {V : Type} : JS V → List String → Bool
  | .obj es, [] => keyPresent es SENTINEL
  | .val _, [] => false
  | node, tok :: rest =>
    match node.read tok with
    | none => false
    | some c => storedB c rest

mutual

/-- Count of terminal markers (sentinel keys) in a subtree, the quantity
the spec's invariant I2 compares with `size`. -/
def countT {V : Type} : JS V → Nat
  | .val _ => 0
  | .obj es => countTEnts es

/-- Count of terminal markers contributed by an entry list. -/
def countTEnts {V : Type} : List (String × JS V) → Nat
  | [] => 0
  | (k, c) :: rest => (if k = SENTINEL then 1 else countT c) + countTEnts rest

end

mutual

/-- Structural enumeration of the stored key sequences of a subtree, one
occurrence per terminal marker. -/
def storedEnum {V : Type} : JS V → List (List String)
  | .val _ => []
  | .obj es => storedEnumEnts es

/-- Stored key sequences contributed by an entry list. -/
def storedEnumEnts {V : Type} : List (String × JS V) → List (List String)
  | [] => []
  | (k, c) :: rest =>
    (if k = SENTINEL then [[]] else (storedEnum c).map (fun s => k :: s))
      ++ storedEnumEnts rest

end

/-- One mutating operation of the map-like trie, for stating the spec's
size invariant over operation sequences.  `del` models `delete`, which
throws on every call. -/
inductive Op (V : Type) where
  | set (p : List String) (v : V)
  | update (p : List String) (f : Option (JS V) → V)
  | del (p : List String)
  | clear

/-- Run one operation. -/
def applyOp {V : Type} (tv : V → Bool) (t : TrieMap V) :
    Op V → Except JSError (TrieMap V)
  | .set p v => t.set tv p v
  | .update p f => t.update tv p f
  | .del p =>
    match t.delete p with
    | .error e => .error e
    | .ok r => .ok r.2
  | .clear => .ok t.clear

/-- Run a sequence of operations, stopping at the first thrown error. -/
def runOps {V : Type} (tv : V → Bool) (t : TrieMap V) :
    List (Op V) → Except JSError (TrieMap V)
  | [] => .ok t
  | op :: ops =>
    match applyOp tv t op with
    | .error e => .error e
    | .ok t2 => runOps tv t2 ops

/-- Key sequences mentioned by an operation. -/
def opTokens {V : Type} : Op V → List String
  | .set p _ => p
  | .update p _ => p
  | .del p => p
  | .clear => []

/-- No token of any operation equals the sentinel key. -/
def opsSentinelFree {V : Type} (ops : List (Op V)) : Bool :=
  ops.all fun op => (opTokens op).all fun tok => tok ≠ SENTINEL

/-- JavaScript's `String.prototype.startsWith`, modelled on the character
list (a byte-level model would be equivalent) so that concrete instances
evaluate inside the kernel. -/
def strStartsWith (s pre : String) : Bool :=
  pre.data.isPrefixOf s.data

/-- Replacement of the first occurrence of a pattern, JavaScript's
`String.prototype.replace` with a plain-string pattern, applied to the
specifier being rewritten (tilde-imports.ts lines 136 and 146). -/
def replaceFirst (s pat rep : String) : String :=
  match s.splitOn pat with
  | [] => s
  | [x] => x
  | x :: xs => x ++ rep ++ String.intercalate pat xs

/-- Case restoration of one path part (tilde-imports.ts lines 131-135):
`partCaseMap[index].has(part) ? partCaseMap[index].get(part) : part`,
where a missing inner map (`??= new Map()`) behaves as an empty one. -/
def caseLookup (pcm : Nat → List (String × String)) (idx : Nat) (part : String) : String :=
  match (pcm idx).lookup part with
  | some cased => cased
  | none => part

/-- The closure returned by `createTildeImportExpander`
(tilde-imports.ts lines 83-149).  The external collaborators are passed
as parameters: `normalize` stands for pathe's `path.normalize` and
`joinPath` for `path.join` applied to the spread argument list, both out
of the spec's core scope.  `pcm` is the captured `partCaseMap` and `trie`
the captured package-root trie.  An import specifier that does not start
with `~` is returned unchanged; otherwise the importer path is
normalized, lowercased, stripped of a leading slash and split on `/`,
the trie's `getPrefixes` lists the enclosing package roots, an empty
result throws (`Error`), an ambiguous one only warns (a log, invisible
here), and the first root — case-restored per part — is joined with the
rewritten specifier. -/
def expandTildeImport (normalize : String → String) (joinPath : List String → String)
    (pcm : Nat → List (String × String)) (trie : Trie)
    (importSpecifier importerFilepath : String) : Except JSError String :=
  if strStartsWith importSpecifier "~" = false then
    .ok importSpecifier
  else
    let n0 := (normalize importerFilepath).toLower
    let n1 := if strStartsWith n0 "/" then n0.drop 1 else n0
    match trie.getPrefixes (n1.splitOn "/") with
    | [] => .error .thrown
    | first :: _ =>
      let mapped := first.enum.map fun ip => caseLookup pcm ip.1 ip.2
      if strStartsWith importSpecifier "~/" then
        .ok (joinPath ("/" :: mapped ++ [replaceFirst importSpecifier "~/" "src/"]))
      else
        .ok (joinPath ("/" :: mapped ++ [replaceFirst importSpecifier "~" ""]))

/-- One character of a string-mode key as a one-character token; in
JavaScript both modes address children by the string coercion of the
token, so a string key is the list of its characters' strings. -/
def chars (s : String) : List String :=
  s.data.map fun c => String.mk [c]

/-- The static `Trie.from` constructor (trie.ts lines 29-35): a fold of
`add` over the given sequences, on a fresh string-mode trie. -/
def Trie.fromList (ws : List (List String)) : Except JSError Trie :=
  ws.foldlM (fun t w => Trie.add t w) (TrieMap.new Bool .string)

/-- Discriminator: is the value a plain object? -/
def isObjB {V : Type} : JS V → Bool
  | .obj _ => true
  | .val _ => false

/-- Well-formedness of a single entry, the per-entry content of
`entsWFb`: the entry's value is well-formed, a sentinel key holds a
primitive and any other key holds an object. -/
def entryOkB {V : Type} (pv : V → Bool) (k : String) (c : JS V) : Bool :=
  WFb pv c && (if k = SENTINEL then !(isObjB c) else isObjB c)

/-- The nonempty leading slices `value.slice(0, i + 1)` of a query, in
increasing length order: the candidates `getPrefixes` considers. -/
def neTakes (s : List String) : List (List String) :=
  (List.range s.length).map fun i => s.take (i + 1)

/-- The trie of the repository's own test (trie.test.ts lines 9-42):
`rat`, `rate`, `tar` added to a fresh string-mode trie, entries in
property-creation order. -/
def trieRatRateTar : Trie :=
  ⟨.string,
    .obj [("r", .obj [("a", .obj [("t", .obj [(SENTINEL, .val true),
      ("e", .obj [(SENTINEL, .val true)])])])]),
      ("t", .obj [("a", .obj [("r", .obj [(SENTINEL, .val true)])])])],
    3⟩

/-- The trie of the iteration test (trie.test.ts lines 216-224): `rat`
and `rate` added to a fresh string-mode trie. -/
def trieRatRate : Trie :=
  ⟨.string,
    .obj [("r", .obj [("a", .obj [("t", .obj [(SENTINEL, .val true),
      ("e", .obj [(SENTINEL, .val true)])])])])],
    2⟩

/-- The state after adding the one-token sequence consisting of the
sentinel character to a fresh string-mode trie: the walk creates a child
under the sentinel key and the terminal marker lands inside it. -/
def trieNulToken : Trie :=
  ⟨.string, .obj [(SENTINEL, .obj [(SENTINEL, .val true)])], 1⟩

/-- The state after adding the empty sequence to a fresh string-mode
trie: the root's own sentinel slot is the terminal marker. -/
def trieEmptySeq : Trie :=
  ⟨.string, .obj [(SENTINEL, .val true)], 1⟩

/-- The state after `set(["a"], true)` on a fresh string-mode trie. -/
def trieSingleA : TrieMap Bool :=
  ⟨.string, .obj [("a", .obj [(SENTINEL, .val true)])], 1⟩

/-- A concrete operation run used to instantiate the size invariant:
two insertions, an update, a clear, and one more insertion. -/
def opsSample : List (Op Bool) :=
  [Op.set ["a"] true, Op.set ["a", "b"] true, Op.update ["a"] (fun _ => true),
    Op.clear, Op.set ["x"] false]

/-- The trie produced by running `opsSample` on a fresh array-mode trie. -/
def trieSampleResult : TrieMap Bool :=
  ⟨.array, .obj [("x", .obj [(SENTINEL, .val false)])], 1⟩

section Lemmas

variable {V : Type}

theorem lookupKey_storeKey_self (es : List (String × JS V)) (q : String) (x : JS V) :
    lookupKey (storeKey es q x) q = some x := by
  induction es with
  | nil => simp [storeKey, lookupKey]
  | cons e rest ih =>
    obtain ⟨k, c⟩ := e
    by_cases hk : k = q
    · simp [storeKey, lookupKey, hk]
    · simp [storeKey, lookupKey, hk, ih]

theorem lookupKey_storeKey_ne (es : List (String × JS V)) {q q2 : String} (x : JS V)
    (h : q2 ≠ q) : lookupKey (storeKey es q x) q2 = lookupKey es q2 := by
  have hq : ¬(q = q2) := fun hh => h hh.symm
  induction es with
  | nil => simp [storeKey, lookupKey, hq]
  | cons e rest ih =>
    obtain ⟨k, c⟩ := e
    by_cases hk : k = q
    · subst hk
      simp [storeKey, lookupKey, hq]
    · simp only [storeKey, if_neg hk, lookupKey]
      by_cases hk2 : k = q2
      · simp [hk2]
      · rw [if_neg hk2, if_neg hk2, ih]

theorem keyPresent_storeKey_self (es : List (String × JS V)) (q : String) (x : JS V) :
    keyPresent (storeKey es q x) q = true := by
  simp [keyPresent, lookupKey_storeKey_self]

theorem keyPresent_storeKey_ne (es : List (String × JS V)) {q q2 : String} (x : JS V)
    (h : q2 ≠ q) : keyPresent (storeKey es q x) q2 = keyPresent es q2 := by
  simp [keyPresent, lookupKey_storeKey_ne es x h]

theorem lookupKey_mem {es : List (String × JS V)} {q : String} {c : JS V}
    (h : lookupKey es q = some c) : (q, c) ∈ es := by
  induction es with
  | nil => simp [lookupKey] at h
  | cons e rest ih =>
    obtain ⟨k, c2⟩ := e
    by_cases hk : k = q
    · subst hk
      rw [show lookupKey ((k, c2) :: rest) k = some c2 by simp [lookupKey]] at h
      have h2 := Option.some.inj h
      subst h2
      exact List.mem_cons_self _ _
    · simp only [lookupKey, if_neg hk] at h
      exact List.mem_cons_of_mem _ (ih h)

theorem mem_keyPresent {es : List (String × JS V)} {q : String} {c : JS V}
    (h : (q, c) ∈ es) : keyPresent es q = true := by
  induction es with
  | nil => cases h
  | cons e rest ih =>
    obtain ⟨k, c2⟩ := e
    rcases List.mem_cons.mp h with h1 | h1
    · cases h1
      simp [keyPresent, lookupKey]
    · by_cases hk : k = q
      · simp [keyPresent, lookupKey, hk]
      · simpa [keyPresent, lookupKey, hk] using ih h1

theorem keyPresent_iff_mem {es : List (String × JS V)} {q : String} :
    keyPresent es q = true ↔ ∃ c, (q, c) ∈ es := by
  constructor
  · intro h
    obtain ⟨c, hc⟩ := Option.isSome_iff_exists.mp h
    exact ⟨c, lookupKey_mem hc⟩
  · rintro ⟨c, hc⟩
    exact mem_keyPresent hc

theorem mem_lookupKey {es : List (String × JS V)} {q : String} {c : JS V}
    (hnd : keysNodupB es = true) (h : (q, c) ∈ es) : lookupKey es q = some c := by
  induction es with
  | nil => cases h
  | cons e rest ih =>
    obtain ⟨k, c2⟩ := e
    simp only [keysNodupB, Bool.and_eq_true, Bool.not_eq_true'] at hnd
    rcases List.mem_cons.mp h with h1 | h1
    · cases h1
      simp [lookupKey]
    · by_cases hk : k = q
      · subst hk
        exact absurd (mem_keyPresent h1) (by simp [hnd.1])
      · simpa [lookupKey, hk] using ih hnd.2 h1

theorem storeKey_mem {es : List (String × JS V)} {q : String} {x : JS V}
    {a : String × JS V} (h : a ∈ storeKey es q x) : a = (q, x) ∨ a ∈ es := by
  induction es with
  | nil =>
    simp only [storeKey, List.mem_singleton] at h
    exact Or.inl h
  | cons e rest ih =>
    obtain ⟨k, c⟩ := e
    by_cases hk : k = q
    · simp only [storeKey, if_pos hk, List.mem_cons] at h
      rcases h with h1 | h1
      · exact Or.inl h1
      · exact Or.inr (List.mem_cons_of_mem _ h1)
    · simp only [storeKey, if_neg hk, List.mem_cons] at h
      rcases h with h1 | h1
      · exact Or.inr (h1 ▸ List.mem_cons_self _ _)
      · rcases ih h1 with h2 | h2
        · exact Or.inl h2
        · exact Or.inr (List.mem_cons_of_mem _ h2)

theorem keysNodupB_storeKey {es : List (String × JS V)} (q : String) (x : JS V)
    (h : keysNodupB es = true) : keysNodupB (storeKey es q x) = true := by
  induction es with
  | nil => simp [storeKey, keysNodupB, keyPresent, lookupKey]
  | cons e rest ih =>
    obtain ⟨k, c⟩ := e
    simp only [keysNodupB, Bool.and_eq_true, Bool.not_eq_true'] at h
    by_cases hk : k = q
    · subst hk
      simp only [storeKey, if_pos rfl, keysNodupB, Bool.and_eq_true, Bool.not_eq_true']
      exact ⟨h.1, h.2⟩
    · simp only [storeKey, if_neg hk, keysNodupB, Bool.and_eq_true, Bool.not_eq_true']
      refine ⟨?_, ih h.2⟩
      rw [keyPresent_storeKey_ne rest x hk]
      exact h.1

end Lemmas

section Lemmas2

variable {V : Type} {pv : V → Bool}

theorem entsWFb_iff_forall {es : List (String × JS V)} :
    entsWFb pv es = true ↔ ∀ p ∈ es, entryOkB pv p.1 p.2 = true := by
  induction es with
  | nil => simp [entsWFb]
  | cons e rest ih =>
    obtain ⟨k, c⟩ := e
    constructor
    · intro h p hp
      simp only [entsWFb, Bool.and_eq_true] at h
      rcases List.mem_cons.mp hp with h1 | h1
      · subst h1
        rw [entryOkB, Bool.and_eq_true]
        by_cases hk : k = SENTINEL
        · rw [if_pos hk] at h ⊢
          cases c with
          | val v =>
            refine ⟨?_, by simp [isObjB]⟩
            simpa [WFb] using h.1
          | obj es2 => simp at h
        · rw [if_neg hk] at h ⊢
          cases c with
          | val v => simp at h
          | obj es2 => exact ⟨h.1, by simp [isObjB]⟩
      · exact ih.mp h.2 p h1
    · intro h
      simp only [entsWFb, Bool.and_eq_true]
      have hhead := h (k, c) (List.mem_cons_self _ _)
      rw [entryOkB, Bool.and_eq_true] at hhead
      constructor
      · by_cases hk : k = SENTINEL
        · rw [if_pos hk]
          rw [if_pos hk] at hhead
          cases c with
          | val v => simpa [WFb] using hhead.1
          | obj es2 => simp [isObjB] at hhead
        · rw [if_neg hk]
          rw [if_neg hk] at hhead
          cases c with
          | val v => simp [isObjB] at hhead
          | obj es2 => exact hhead.1
      · exact ih.mpr fun p hp => h p (List.mem_cons_of_mem _ hp)

theorem WFb_obj_nodup {es : List (String × JS V)} (h : WFb pv (JS.obj es) = true) :
    keysNodupB es = true := by
  rw [WFb, Bool.and_eq_true] at h
  exact h.1

theorem WFb_obj_ents {es : List (String × JS V)} (h : WFb pv (JS.obj es) = true) :
    entsWFb pv es = true := by
  rw [WFb, Bool.and_eq_true] at h
  exact h.2

theorem WFb_mem_entry {es : List (String × JS V)} {k : String} {c : JS V}
    (h : WFb pv (JS.obj es) = true) (hm : (k, c) ∈ es) : entryOkB pv k c = true :=
  entsWFb_iff_forall.mp (WFb_obj_ents h) (k, c) hm

theorem WFb_mem_child {es : List (String × JS V)} {k : String} {c : JS V}
    (h : WFb pv (JS.obj es) = true) (hm : (k, c) ∈ es) : WFb pv c = true := by
  have h2 := WFb_mem_entry h hm
  rw [entryOkB, Bool.and_eq_true] at h2
  exact h2.1

theorem WFb_mem_sentinel {es : List (String × JS V)} {c : JS V}
    (h : WFb pv (JS.obj es) = true) (hm : (SENTINEL, c) ∈ es) :
    ∃ v, c = JS.val v ∧ pv v = true := by
  have h2 := WFb_mem_entry h hm
  rw [entryOkB, Bool.and_eq_true, if_pos rfl] at h2
  cases c with
  | val v =>
    refine ⟨v, rfl, ?_⟩
    simpa [WFb] using h2.1
  | obj es2 => simp [isObjB] at h2

theorem WFb_mem_nonsentinel {es : List (String × JS V)} {k : String} {c : JS V}
    (h : WFb pv (JS.obj es) = true) (hm : (k, c) ∈ es) (hk : k ≠ SENTINEL) :
    isObjB c = true := by
  have h2 := WFb_mem_entry h hm
  rw [entryOkB, Bool.and_eq_true, if_neg hk] at h2
  exact h2.2

theorem entsSize_mem {k : String} {c : JS V} :
    ∀ {es : List (String × JS V)}, (k, c) ∈ es → jsSize c < entsSize es := by
  intro es h
  induction es with
  | nil => cases h
  | cons e rest ih =>
    obtain ⟨a, b⟩ := e
    rw [show entsSize ((a, b) :: rest) = 1 + jsSize b + entsSize rest from rfl]
    rcases List.mem_cons.mp h with h1 | h1
    · cases h1
      omega
    · have := ih h1
      omega

/-- Tree induction for the nested datatype of JS values: to prove a
property of all values it suffices to prove it for primitives and for
objects assuming it for every entry's value. -/
theorem JS.indOn {motive : JS V → Prop}
    (hval : ∀ v, motive (JS.val v))
    (hobj : ∀ es, (∀ k c, (k, c) ∈ es → motive c) → motive (JS.obj es)) :
    ∀ t, motive t
  | .val v => hval v
  | .obj es => hobj es (fun _ c hmem => JS.indOn hval hobj c)
termination_by t => jsSize t
decreasing_by
  have h := entsSize_mem hmem
  rw [show jsSize (JS.obj es) = 1 + entsSize es from rfl]
  omega

theorem hasGo_val {v : V} (p : List String) : hasGo (JS.val v) p ≠ .ok true := by
  cases p with
  | nil => simp [hasGo, JS.hasKey]
  | cons tok rest => simp [hasGo, JS.read]

theorem storedB_val {v : V} (p : List String) : storedB (JS.val v) p = false := by
  cases p with
  | nil => rfl
  | cons tok rest => simp [storedB, JS.read]

theorem hasGo_iff_storedB {n : JS V} {s : List String} (hWF : WFb pv n = true) :
    hasGo n s = .ok true ↔ storedB n s = true := by
  induction s generalizing n with
  | nil =>
    cases n with
    | val v => simp [hasGo, JS.hasKey, storedB]
    | obj es => simp [hasGo, JS.hasKey, storedB]
  | cons tok rest ih =>
    cases n with
    | val v => simp [hasGo, JS.read, storedB]
    | obj es =>
      rw [hasGo, storedB]
      cases hl : JS.read (JS.obj es) tok with
      | none => simp
      | some c =>
        have hc : WFb pv c = true := WFb_mem_child hWF (lookupKey_mem (by simpa [JS.read] using hl))
        exact ih hc

end Lemmas2

section StoreLemmas

variable {V : Type} {pv tv : V → Bool} {mk : Option (JS V) → V}

theorem storeCore_ok_has {p : List String} :
    ∀ {n n2 : JS V} {inc : Bool}, storeCore tv mk n p = .ok (n2, inc) →
      hasGo n2 p = .ok true := by
  induction p with
  | nil =>
    intro n n2 inc h
    cases n with
    | val v => simp [storeCore] at h
    | obj es =>
      simp only [storeCore, Except.ok.injEq, Prod.mk.injEq] at h
      rw [← h.1]
      simp [hasGo, JS.hasKey, keyPresent_storeKey_self]
  | cons tok rest ih =>
    intro n n2 inc h
    cases n with
    | val v => simp [storeCore] at h
    | obj es =>
      simp only [storeCore] at h
      cases hs : storeCore tv mk
          (match lookupKey es tok with
            | some c => if c.truthy tv then c else JS.obj []
            | none => JS.obj []) rest with
      | error e => rw [hs] at h; simp at h
      | ok r =>
        obtain ⟨c2, inc2⟩ := r
        rw [hs] at h
        simp only [Except.ok.injEq, Prod.mk.injEq] at h
        rw [← h.1]
        simp only [hasGo, JS.read, lookupKey_storeKey_self]
        exact ih hs

theorem storeCore_of_has {p : List String} :
    ∀ {n : JS V}, hasGo n p = .ok true →
      ∃ n2, storeCore tv mk n p = .ok (n2, false) := by
  induction p with
  | nil =>
    intro n h
    cases n with
    | val v => simp [hasGo, JS.hasKey] at h
    | obj es =>
      simp only [hasGo, JS.hasKey, Except.ok.injEq] at h
      refine ⟨JS.obj (storeKey es SENTINEL (JS.val (mk (lookupKey es SENTINEL)))), ?_⟩
      simp [storeCore, h]
  | cons tok rest ih =>
    intro n h
    cases n with
    | val v => simp [hasGo, JS.read] at h
    | obj es =>
      rw [hasGo] at h
      cases hl : JS.read (JS.obj es) tok with
      | none => rw [hl] at h; simp at h
      | some c =>
        rw [hl] at h
        have hcv : ∃ es2, c = JS.obj es2 := by
          cases c with
          | val v => exact absurd h (hasGo_val rest)
          | obj es2 => exact ⟨es2, rfl⟩
        obtain ⟨es2, rfl⟩ := hcv
        obtain ⟨c2, hc2⟩ := ih h
        refine ⟨JS.obj (storeKey es tok c2), ?_⟩
        simp only [JS.read] at hl
        simp [storeCore, hl, JS.truthy, hc2]

theorem storeCore_ok_get {p : List String} {v : V} :
    ∀ {n n2 : JS V} {inc : Bool}, storeCore tv (fun _ => v) n p = .ok (n2, inc) →
      getGo n2 p = .ok (some (JS.val v)) := by
  induction p with
  | nil =>
    intro n n2 inc h
    cases n with
    | val w => simp [storeCore] at h
    | obj es =>
      simp only [storeCore, Except.ok.injEq, Prod.mk.injEq] at h
      rw [← h.1]
      simp [getGo, lookupKey_storeKey_self]
  | cons tok rest ih =>
    intro n n2 inc h
    cases n with
    | val w => simp [storeCore] at h
    | obj es =>
      simp only [storeCore] at h
      cases hs : storeCore tv (fun _ => v)
          (match lookupKey es tok with
            | some c => if c.truthy tv then c else JS.obj []
            | none => JS.obj []) rest with
      | error e => rw [hs] at h; simp at h
      | ok r =>
        obtain ⟨c2, inc2⟩ := r
        rw [hs] at h
        simp only [Except.ok.injEq, Prod.mk.injEq] at h
        rw [← h.1]
        simp only [getGo, JS.read, lookupKey_storeKey_self]
        exact ih hs

theorem storeCore_preserves_has {u : List String} :
    ∀ {n n2 : JS V} {inc : Bool} {s : List String},
      WFb pv n = true → hasGo n s = .ok true →
      storeCore tv mk n u = .ok (n2, inc) → hasGo n2 s = .ok true := by
  induction u with
  | nil =>
    intro n n2 inc s hWF hhas h
    cases n with
    | val v => simp [storeCore] at h
    | obj es =>
      simp only [storeCore, Except.ok.injEq, Prod.mk.injEq] at h
      rw [← h.1]
      cases s with
      | nil =>
        simp [hasGo, JS.hasKey, keyPresent_storeKey_self]
      | cons a r =>
        rw [hasGo] at hhas ⊢
        cases hl : JS.read (JS.obj es) a with
        | none => rw [hl] at hhas; simp at hhas
        | some c =>
          rw [hl] at hhas
          by_cases ha : a = SENTINEL
          · subst ha
            obtain ⟨w, hw, _⟩ := WFb_mem_sentinel hWF (lookupKey_mem (by simpa [JS.read] using hl))
            rw [hw] at hhas
            exact absurd hhas (hasGo_val r)
          · have : JS.read (JS.obj (storeKey es SENTINEL (JS.val (mk (lookupKey es SENTINEL))))) a
                = some c := by
              simp only [JS.read] at hl ⊢
              rw [lookupKey_storeKey_ne es _ ha]
              exact hl
            rw [this]
            exact hhas
  | cons tok urest ih =>
    intro n n2 inc s hWF hhas h
    cases n with
    | val v => simp [storeCore] at h
    | obj es =>
      simp only [storeCore] at h
      cases hs : storeCore tv mk
          (match lookupKey es tok with
            | some c => if c.truthy tv then c else JS.obj []
            | none => JS.obj []) urest with
      | error e => rw [hs] at h; simp at h
      | ok r =>
        obtain ⟨c2, inc2⟩ := r
        rw [hs] at h
        simp only [Except.ok.injEq, Prod.mk.injEq] at h
        rw [← h.1]
        cases s with
        | nil =>
          rw [hasGo, JS.hasKey] at hhas ⊢
          simp only [Except.ok.injEq] at hhas ⊢
          by_cases ha : tok = SENTINEL
          · subst ha
            exact keyPresent_storeKey_self es SENTINEL c2
          · rw [keyPresent_storeKey_ne es c2 (fun hh => ha hh.symm)]

            exact hhas
        | cons a r =>
          rw [hasGo] at hhas ⊢
          cases hl : JS.read (JS.obj es) a with
          | none => rw [hl] at hhas; simp at hhas
          | some c =>
            rw [hl] at hhas
            by_cases ha : a = tok
            · subst ha
              have hcv : ∃ es2, c = JS.obj es2 := by
                cases c with
                | val v => exact absurd hhas (hasGo_val r)
                | obj es2 => exact ⟨es2, rfl⟩
              obtain ⟨es2, rfl⟩ := hcv
              have hchild : (match lookupKey es a with
                  | some c => if c.truthy tv then c else JS.obj []
                  | none => JS.obj []) = JS.obj es2 := by
                simp only [JS.read] at hl
                simp [hl, JS.truthy]
              rw [hchild] at hs
              have hWFc : WFb pv (JS.obj es2) = true :=
                WFb_mem_child hWF (lookupKey_mem (by simpa [JS.read] using hl))
              have : JS.read (JS.obj (storeKey es a c2)) a = some c2 := by
                simp [JS.read, lookupKey_storeKey_self]
              rw [this]
              exact ih hWFc hhas hs
            · have : JS.read (JS.obj (storeKey es tok c2)) a = some c := by
                simp only [JS.read] at hl ⊢
                rw [lookupKey_storeKey_ne es c2 ha]
                exact hl
              rw [this]
              exact hhas

end StoreLemmas

section CountLemmas

variable {V : Type} {pv tv : V → Bool} {mk : Option (JS V) → V}

theorem countTEnts_storeKey_sentinel (es : List (String × JS V)) (x : JS V) :
    countTEnts (storeKey es SENTINEL x)
      = countTEnts es + (if keyPresent es SENTINEL then 0 else 1) := by
  induction es with
  | nil => simp [storeKey, countTEnts, keyPresent, lookupKey]
  | cons e rest ih =>
    obtain ⟨k, c⟩ := e
    by_cases hk : k = SENTINEL
    · subst hk
      have hp : keyPresent ((SENTINEL, c) :: rest) SENTINEL = true := by
        simp [keyPresent, lookupKey]
      rw [hp]
      rw [show storeKey ((SENTINEL, c) :: rest) SENTINEL x = (SENTINEL, x) :: rest by
        simp [storeKey]]
      simp [countTEnts]
    · have hp : keyPresent ((k, c) :: rest) SENTINEL = keyPresent rest SENTINEL := by
        simp [keyPresent, lookupKey, hk]
      rw [hp]
      rw [show storeKey ((k, c) :: rest) SENTINEL x = (k, c) :: storeKey rest SENTINEL x by
        simp [storeKey, hk]]
      rw [show countTEnts ((k, c) :: storeKey rest SENTINEL x)
          = (if k = SENTINEL then 1 else countT c) + countTEnts (storeKey rest SENTINEL x)
          from rfl]
      rw [show countTEnts ((k, c) :: rest)
          = (if k = SENTINEL then 1 else countT c) + countTEnts rest from rfl]
      rw [ih]
      omega

theorem countTEnts_storeKey_nonsentinel {q : String} (hq : q ≠ SENTINEL)
    (es : List (String × JS V)) (x : JS V) :
    countTEnts (storeKey es q x)
        + (match lookupKey es q with | some c => countT c | none => 0)
      = countTEnts es + countT x := by
  induction es with
  | nil => simp [storeKey, countTEnts, lookupKey, hq]
  | cons e rest ih =>
    obtain ⟨k, c⟩ := e
    by_cases hk : k = q
    · subst hk
      rw [show storeKey ((k, c) :: rest) k x = (k, x) :: rest by simp [storeKey]]
      rw [show (match lookupKey ((k, c) :: rest) k with
          | some c => countT c
          | none => 0) = countT c by simp [lookupKey]]
      rw [show countTEnts ((k, x) :: rest)
          = (if k = SENTINEL then 1 else countT x) + countTEnts rest from rfl]
      rw [show countTEnts ((k, c) :: rest)
          = (if k = SENTINEL then 1 else countT c) + countTEnts rest from rfl]
      rw [if_neg hq, if_neg hq]
      omega
    · rw [show storeKey ((k, c) :: rest) q x = (k, c) :: storeKey rest q x by
        simp [storeKey, hk]]
      rw [show lookupKey ((k, c) :: rest) q = lookupKey rest q by simp [lookupKey, hk]]
      rw [show countTEnts ((k, c) :: storeKey rest q x)
          = (if k = SENTINEL then 1 else countT c) + countTEnts (storeKey rest q x)
          from rfl]
      rw [show countTEnts ((k, c) :: rest)
          = (if k = SENTINEL then 1 else countT c) + countTEnts rest from rfl]
      omega

theorem storeCore_ok_isObj {u : List String} {n n2 : JS V} {inc : Bool}
    (h : storeCore tv mk n u = .ok (n2, inc)) : isObjB n2 = true := by
  cases u with
  | nil =>
    cases n with
    | val v => simp [storeCore] at h
    | obj es =>
      simp only [storeCore, Except.ok.injEq, Prod.mk.injEq] at h
      rw [← h.1]
      rfl
  | cons tok rest =>
    cases n with
    | val v => simp [storeCore] at h
    | obj es =>
      simp only [storeCore] at h
      cases hs : storeCore tv mk
          (match lookupKey es tok with
            | some c => if c.truthy tv then c else JS.obj []
            | none => JS.obj []) rest with
      | error e => rw [hs] at h; simp at h
      | ok r =>
        obtain ⟨c2, inc2⟩ := r
        rw [hs] at h
        simp only [Except.ok.injEq, Prod.mk.injEq] at h
        rw [← h.1]
        rfl

theorem storeCore_countT {u : List String} :
    ∀ {n n2 : JS V} {inc : Bool}, (∀ tok ∈ u, tok ≠ SENTINEL) →
      storeCore tv mk n u = .ok (n2, inc) →
      countT n2 = countT n + (if inc then 1 else 0) := by
  induction u with
  | nil =>
    intro n n2 inc _ h
    cases n with
    | val v => simp [storeCore] at h
    | obj es =>
      simp only [storeCore, Except.ok.injEq, Prod.mk.injEq] at h
      rw [← h.1, ← h.2]
      rw [show countT (JS.obj (storeKey es SENTINEL (JS.val (mk (lookupKey es SENTINEL)))))
          = countTEnts (storeKey es SENTINEL (JS.val (mk (lookupKey es SENTINEL)))) from rfl]
      rw [countTEnts_storeKey_sentinel]
      rw [show countT (JS.obj es) = countTEnts es from rfl]
      cases hp : keyPresent es SENTINEL <;> simp [hp]
  | cons tok urest ih =>
    intro n n2 inc hsf h
    have htok : tok ≠ SENTINEL := hsf tok (List.mem_cons_self _ _)
    have hsf2 : ∀ t2 ∈ urest, t2 ≠ SENTINEL := fun t2 ht => hsf t2 (List.mem_cons_of_mem _ ht)
    cases n with
    | val v => simp [storeCore] at h
    | obj es =>
      simp only [storeCore] at h
      cases hs : storeCore tv mk
          (match lookupKey es tok with
            | some c => if c.truthy tv then c else JS.obj []
            | none => JS.obj []) urest with
      | error e => rw [hs] at h; simp at h
      | ok r =>
        obtain ⟨c2, inc2⟩ := r
        rw [hs] at h
        simp only [Except.ok.injEq, Prod.mk.injEq] at h
        rw [← h.1, ← h.2]
        have hkey := countTEnts_storeKey_nonsentinel htok es c2
        have hchild : countT (match lookupKey es tok with
            | some c => if c.truthy tv then c else JS.obj []
            | none => JS.obj [])
            = (match lookupKey es tok with | some c => countT c | none => 0) := by
          cases hl : lookupKey es tok with
          | none => rfl
          | some c0 =>
            cases c0 with
            | obj es0 => simp [JS.truthy]
            | val v0 =>
              by_cases htr : tv v0 = true
              · rw [hl] at hs
                simp only [JS.truthy, htr, if_true] at hs
                cases urest <;> simp [storeCore] at hs
              · simp [JS.truthy, htr, countT, countTEnts]
        have hih := ih hsf2 hs
        rw [hchild] at hih
        rw [show countT (JS.obj (storeKey es tok c2)) = countTEnts (storeKey es tok c2) from rfl]
        rw [show countT (JS.obj es) = countTEnts es from rfl]
        omega

theorem storeCore_WF {u : List String} :
    ∀ {n n2 : JS V} {inc : Bool}, WFb pv n = true → (∀ tok ∈ u, tok ≠ SENTINEL) →
      (∀ old, pv (mk old) = true) → storeCore tv mk n u = .ok (n2, inc) →
      WFb pv n2 = true := by
  induction u with
  | nil =>
    intro n n2 inc hWF _ hmk h
    cases n with
    | val v => simp [storeCore] at h
    | obj es =>
      simp only [storeCore, Except.ok.injEq, Prod.mk.injEq] at h
      rw [← h.1]
      rw [WFb, Bool.and_eq_true]
      refine ⟨keysNodupB_storeKey _ _ (WFb_obj_nodup hWF), ?_⟩
      rw [entsWFb_iff_forall]
      intro p hp
      rcases storeKey_mem hp with h1 | h1
      · subst h1
        rw [entryOkB, Bool.and_eq_true, if_pos rfl]
        exact ⟨by simpa [WFb] using hmk (lookupKey es SENTINEL), by simp [isObjB]⟩
      · exact WFb_mem_entry hWF h1
  | cons tok urest ih =>
    intro n n2 inc hWF hsf hmk h
    have htok : tok ≠ SENTINEL := hsf tok (List.mem_cons_self _ _)
    have hsf2 : ∀ t2 ∈ urest, t2 ≠ SENTINEL := fun t2 ht => hsf t2 (List.mem_cons_of_mem _ ht)
    cases n with
    | val v => simp [storeCore] at h
    | obj es =>
      simp only [storeCore] at h
      cases hs : storeCore tv mk
          (match lookupKey es tok with
            | some c => if c.truthy tv then c else JS.obj []
            | none => JS.obj []) urest with
      | error e => rw [hs] at h; simp at h
      | ok r =>
        obtain ⟨c2, inc2⟩ := r
        rw [hs] at h
        simp only [Except.ok.injEq, Prod.mk.injEq] at h
        rw [← h.1]
        have hchildWF : WFb pv (match lookupKey es tok with
            | some c => if c.truthy tv then c else JS.obj []
            | none => JS.obj []) = true := by
          cases hl : lookupKey es tok with
          | none => rfl
          | some c0 =>
            have hobj := WFb_mem_nonsentinel hWF (lookupKey_mem hl) htok
            cases c0 with
            | val v0 => simp [isObjB] at hobj
            | obj es0 =>
              simpa [JS.truthy] using WFb_mem_child hWF (lookupKey_mem hl)
        have hWFc2 : WFb pv c2 = true := ih hchildWF hsf2 hmk hs
        rw [WFb, Bool.and_eq_true]
        refine ⟨keysNodupB_storeKey _ _ (WFb_obj_nodup hWF), ?_⟩
        rw [entsWFb_iff_forall]
        intro p hp
        rcases storeKey_mem hp with h1 | h1
        · subst h1
          rw [entryOkB, Bool.and_eq_true, if_neg htok]
          exact ⟨hWFc2, storeCore_ok_isObj hs⟩
        · exact WFb_mem_entry hWF h1

end CountLemmas

section EnumLemmas

variable {V : Type} {pv : V → Bool}

theorem storedEnum_length : ∀ n : JS V, (storedEnum n).length = countT n := by
  intro n
  induction n using JS.indOn with
  | hval v => rfl
  | hobj es ih =>
    rw [show storedEnum (JS.obj es) = storedEnumEnts es from rfl,
      show countT (JS.obj es) = countTEnts es from rfl]
    induction es with
    | nil => rfl
    | cons e rest ih2 =>
      obtain ⟨k, c⟩ := e
      rw [show storedEnumEnts ((k, c) :: rest)
          = (if k = SENTINEL then [[]] else (storedEnum c).map (fun s => k :: s))
            ++ storedEnumEnts rest from rfl]
      rw [show countTEnts ((k, c) :: rest)
          = (if k = SENTINEL then 1 else countT c) + countTEnts rest from rfl]
      rw [List.length_append]
      have hrest := ih2 fun k2 c2 hm => ih k2 c2 (List.mem_cons_of_mem _ hm)
      by_cases hk : k = SENTINEL
      · simp [hk, hrest]
      · simp [hk, hrest, ih k c (List.mem_cons_self _ _)]

theorem mem_storedEnumEnts_nil {es : List (String × JS V)} :
    [] ∈ storedEnumEnts es ↔ ∃ c, (SENTINEL, c) ∈ es := by
  induction es with
  | nil => simp [storedEnumEnts]
  | cons e rest ih =>
    obtain ⟨k, c⟩ := e
    rw [show storedEnumEnts ((k, c) :: rest)
        = (if k = SENTINEL then [[]] else (storedEnum c).map (fun s => k :: s))
          ++ storedEnumEnts rest from rfl]
    by_cases hk : k = SENTINEL
    · subst hk
      simp [ih]
    · rw [if_neg hk, List.mem_append]
      constructor
      · intro h
        rcases h with h1 | h1
        · obtain ⟨s, _, hs⟩ := List.mem_map.mp h1
          cases hs
        · obtain ⟨c2, hc2⟩ := ih.mp h1
          exact ⟨c2, List.mem_cons_of_mem _ hc2⟩
      · rintro ⟨c2, hc2⟩
        rcases List.mem_cons.mp hc2 with h1 | h1
        · cases h1
          exact absurd rfl hk
        · exact Or.inr (ih.mpr ⟨c2, h1⟩)

theorem mem_storedEnumEnts_cons {es : List (String × JS V)} {a : String} {r : List String} :
    (a :: r) ∈ storedEnumEnts es
      ↔ ∃ c, (a, c) ∈ es ∧ a ≠ SENTINEL ∧ r ∈ storedEnum c := by
  induction es with
  | nil => simp [storedEnumEnts]
  | cons e rest ih =>
    obtain ⟨k, c⟩ := e
    rw [show storedEnumEnts ((k, c) :: rest)
        = (if k = SENTINEL then [[]] else (storedEnum c).map (fun s => k :: s))
          ++ storedEnumEnts rest from rfl]
    rw [List.mem_append]
    by_cases hk : k = SENTINEL
    · subst hk
      rw [if_pos rfl]
      constructor
      · intro h
        rcases h with h1 | h1
        · simp at h1
        · obtain ⟨c2, hm, ha, hr⟩ := ih.mp h1
          exact ⟨c2, List.mem_cons_of_mem _ hm, ha, hr⟩
      · rintro ⟨c2, hm, ha, hr⟩
        rcases List.mem_cons.mp hm with h1 | h1
        · cases h1
          exact absurd rfl ha
        · exact Or.inr (ih.mpr ⟨c2, h1, ha, hr⟩)
    · rw [if_neg hk]
      constructor
      · intro h
        rcases h with h1 | h1
        · obtain ⟨s, hs, he⟩ := List.mem_map.mp h1
          obtain ⟨rfl, rfl⟩ : k = a ∧ s = r := by
            cases he
            exact ⟨rfl, rfl⟩
          exact ⟨c, List.mem_cons_self _ _, hk, hs⟩
        · obtain ⟨c2, hm, ha, hr⟩ := ih.mp h1
          exact ⟨c2, List.mem_cons_of_mem _ hm, ha, hr⟩
      · rintro ⟨c2, hm, ha, hr⟩
        rcases List.mem_cons.mp hm with h1 | h1
        · obtain ⟨rfl, rfl⟩ : a = k ∧ c2 = c := by
            cases h1
            exact ⟨rfl, rfl⟩
          exact Or.inl (List.mem_map.mpr ⟨r, hr, rfl⟩)
        · exact Or.inr (ih.mpr ⟨c2, h1, ha, hr⟩)

theorem storedEnum_mem :
    ∀ {n : JS V}, WFb pv n = true → ∀ s : List String,
      (s ∈ storedEnum n ↔ storedB n s = true) := by
  intro n
  induction n using JS.indOn with
  | hval v =>
    intro _ s
    rw [show storedEnum (JS.val v) = ([] : List (List String)) from rfl, storedB_val]
    simp
  | hobj es ih =>
    intro hWF s
    cases s with
    | nil =>
      rw [show storedEnum (JS.obj es) = storedEnumEnts es from rfl]
      rw [show storedB (JS.obj es) [] = keyPresent es SENTINEL from rfl]
      rw [mem_storedEnumEnts_nil, keyPresent_iff_mem]
    | cons a r =>
      rw [show storedEnum (JS.obj es) = storedEnumEnts es from rfl]
      rw [show storedB (JS.obj es) (a :: r)
          = (match JS.read (JS.obj es) a with
            | none => false
            | some c => storedB c r) from rfl]
      rw [mem_storedEnumEnts_cons]
      simp only [JS.read]
      constructor
      · rintro ⟨c, hm, _, hr⟩
        rw [mem_lookupKey (WFb_obj_nodup hWF) hm]
        exact (ih a c hm (WFb_mem_child hWF hm) r).mp hr
      · intro hst
        cases hl : lookupKey es a with
        | none => rw [hl] at hst; simp at hst
        | some c =>
          rw [hl] at hst
          have hst2 : storedB c r = true := hst
          have hm := lookupKey_mem hl
          have ha : a ≠ SENTINEL := by
            intro hEq
            subst hEq
            obtain ⟨w, hw, _⟩ := WFb_mem_sentinel hWF hm
            rw [hw, storedB_val] at hst2
            cases hst2
          exact ⟨c, hm, ha, (ih a c hm (WFb_mem_child hWF hm) r).mpr hst2⟩

theorem storedEnumEnts_nodup :
    ∀ {es : List (String × JS V)}, keysNodupB es = true → entsWFb pv es = true →
      (∀ k c, (k, c) ∈ es → WFb pv c = true → (storedEnum c).Nodup) →
      (storedEnumEnts es).Nodup := by
  intro es
  induction es with
  | nil =>
    intro _ _ _
    simp [storedEnumEnts]
  | cons e rest ih =>
    obtain ⟨k, c⟩ := e
    intro hnd hwf ihm
    simp only [keysNodupB, Bool.and_eq_true, Bool.not_eq_true'] at hnd
    have hwfc : WFb pv c = true := by
      have := entsWFb_iff_forall.mp hwf (k, c) (List.mem_cons_self _ _)
      rw [entryOkB, Bool.and_eq_true] at this
      exact this.1
    have hwfrest : entsWFb pv rest = true :=
      entsWFb_iff_forall.mpr fun p hp =>
        entsWFb_iff_forall.mp hwf p (List.mem_cons_of_mem _ hp)
    have hrest : (storedEnumEnts rest).Nodup :=
      ih hnd.2 hwfrest fun k2 c2 hm => ihm k2 c2 (List.mem_cons_of_mem _ hm)
    rw [show storedEnumEnts ((k, c) :: rest)
        = (if k = SENTINEL then [[]] else (storedEnum c).map (fun s => k :: s))
          ++ storedEnumEnts rest from rfl]
    rw [List.nodup_append]
    refine ⟨?_, hrest, ?_⟩
    · by_cases hk : k = SENTINEL
      · simp [hk]
      · rw [if_neg hk]
        exact (ihm k c (List.mem_cons_self _ _) hwfc).map
          fun s1 s2 h => by injection h
    · intro x hx
      by_cases hk : k = SENTINEL
      · rw [if_pos hk] at hx
        obtain rfl : x = ([] : List String) := List.mem_singleton.mp hx
        intro hx2
        obtain ⟨c2, hc2⟩ := mem_storedEnumEnts_nil.mp hx2
        have := mem_keyPresent hc2
        rw [← hk] at this
        rw [this] at hnd
        exact absurd hnd.1 (by simp)
      · rw [if_neg hk] at hx
        obtain ⟨s, _, rfl⟩ := List.mem_map.mp hx
        intro hx2
        obtain ⟨c2, hc2, _, _⟩ := mem_storedEnumEnts_cons.mp hx2
        have := mem_keyPresent hc2
        rw [this] at hnd
        exact absurd hnd.1 (by simp)

theorem storedEnum_nodup {n : JS V} (hWF : WFb pv n = true) : (storedEnum n).Nodup := by
  induction n using JS.indOn with
  | hval v => simp [storedEnum]
  | hobj es ih =>
    rw [show storedEnum (JS.obj es) = storedEnumEnts es from rfl]
    exact storedEnumEnts_nodup (WFb_obj_nodup hWF) (WFb_obj_ents hWF)
      fun k c hm hwfc => ih k c hm (WFb_mem_child hWF hm)

end EnumLemmas

section WalkLemmas

variable {V : Type} {pv : V → Bool}

theorem storedB_append (p s : List String) :
    ∀ n : JS V, storedB n (p ++ s)
      = match walk n p with
        | none => false
        | some m => storedB m s := by
  induction p with
  | nil =>
    intro n
    simp [walk]
  | cons a r ih =>
    intro n
    cases n with
    | val v =>
      rw [show walk (JS.val v) (a :: r) = (match JS.read (JS.val v) a with
          | none => none
          | some c => walk c r) from rfl]
      simp [JS.read, storedB_val]
    | obj es =>
      rw [show ((a :: r) ++ s) = a :: (r ++ s) from rfl]
      rw [show storedB (JS.obj es) (a :: (r ++ s)) = (match JS.read (JS.obj es) a with
          | none => false
          | some c => storedB c (r ++ s)) from rfl]
      rw [show walk (JS.obj es) (a :: r) = (match JS.read (JS.obj es) a with
          | none => none
          | some c => walk c r) from rfl]
      cases hl : JS.read (JS.obj es) a with
      | none => rfl
      | some c => exact ih c

theorem walk_WF : ∀ (p : List String) {n m : JS V}, WFb pv n = true →
    walk n p = some m → WFb pv m = true := by
  intro p
  induction p with
  | nil =>
    intro n m hWF h
    rw [walk] at h
    cases h
    exact hWF
  | cons a r ih =>
    intro n m hWF h
    rw [show walk n (a :: r) = (match JS.read n a with
        | none => none
        | some c => walk c r) from rfl] at h
    cases hl : JS.read n a with
    | none => rw [hl] at h; cases h
    | some c =>
      rw [hl] at h
      cases n with
      | val v => simp [JS.read] at hl
      | obj es =>
        have hc : WFb pv c = true :=
          WFb_mem_child hWF (lookupKey_mem (by simpa [JS.read] using hl))
        exact ih hc h

theorem scanEntries_mem (pre x : List String) :
    ∀ es : List (String × JS V),
      (x ∈ (scanEntries pre es).1
          ∨ ∃ np ∈ (scanEntries pre es).2, ∃ s ∈ storedEnum np.1, x = np.2 ++ s)
        ↔ ∃ s ∈ storedEnumEnts es, x = pre ++ s := by
  intro es
  induction es with
  | nil => simp [scanEntries, storedEnumEnts]
  | cons e rest ih =>
    obtain ⟨k, c⟩ := e
    rw [show storedEnumEnts ((k, c) :: rest)
        = (if k = SENTINEL then [[]] else (storedEnum c).map (fun s => k :: s))
          ++ storedEnumEnts rest from rfl]
    by_cases hk : k = SENTINEL
    · have h1 : (scanEntries pre ((k, c) :: rest)).1 = pre :: (scanEntries pre rest).1 := by
        simp [scanEntries, hk]
      have h2 : (scanEntries pre ((k, c) :: rest)).2 = (scanEntries pre rest).2 := by
        simp [scanEntries, hk]
      rw [h1, h2, if_pos hk]
      constructor
      · intro h
        rcases h with h3 | h3
        · rcases List.mem_cons.mp h3 with h4 | h4
          · exact ⟨[], by simp, by simp [h4]⟩
          · obtain ⟨s, hs, hx⟩ := ih.mp (Or.inl h4)
            exact ⟨s, by simp [hs], hx⟩
        · obtain ⟨s, hs, hx⟩ := ih.mp (Or.inr h3)
          exact ⟨s, by simp [hs], hx⟩
      · rintro ⟨s, hs, hx⟩
        rcases List.mem_append.mp hs with h3 | h3
        · obtain rfl : s = ([] : List String) := List.mem_singleton.mp h3
          refine Or.inl ?_
          rw [hx, List.append_nil]
          exact List.mem_cons_self _ _
        · rcases ih.mpr ⟨s, h3, hx⟩ with h4 | h4
          · exact Or.inl (List.mem_cons_of_mem _ h4)
          · exact Or.inr h4
    · have h1 : (scanEntries pre ((k, c) :: rest)).1 = (scanEntries pre rest).1 := by
        simp [scanEntries, hk]
      have h2 : (scanEntries pre ((k, c) :: rest)).2
          = (c, pre ++ [k]) :: (scanEntries pre rest).2 := by
        simp [scanEntries, hk]
      rw [h1, h2, if_neg hk]
      constructor
      · intro h
        rcases h with h3 | h3
        · obtain ⟨s, hs, hx⟩ := ih.mp (Or.inl h3)
          exact ⟨s, by simp [hs], hx⟩
        · obtain ⟨np, hnp, s, hs, hx⟩ := h3
          rcases List.mem_cons.mp hnp with h4 | h4
          · subst h4
            refine ⟨k :: s, ?_, ?_⟩
            · simp only [List.mem_append]
              exact Or.inl (List.mem_map.mpr ⟨s, hs, rfl⟩)
            · rw [hx]
              simp
          · obtain ⟨s2, hs2, hx2⟩ := ih.mp (Or.inr ⟨np, h4, s, hs, hx⟩)
            exact ⟨s2, by simp [hs2], hx2⟩
      · rintro ⟨s, hs, hx⟩
        rcases List.mem_append.mp hs with h3 | h3
        · obtain ⟨s0, hs0, rfl⟩ := List.mem_map.mp h3
          refine Or.inr ⟨(c, pre ++ [k]), List.mem_cons_self _ _, s0, hs0, ?_⟩
          rw [hx]
          simp
        · rcases ih.mpr ⟨s, h3, hx⟩ with h4 | h4
          · exact Or.inl h4
          · obtain ⟨np, hnp, hrest⟩ := h4
            exact Or.inr ⟨np, List.mem_cons_of_mem _ hnp, hrest⟩

theorem scanNode_mem (n : JS V) (pre x : List String) :
    (x ∈ (scanNode n pre).1
        ∨ ∃ np ∈ (scanNode n pre).2, ∃ s ∈ storedEnum np.1, x = np.2 ++ s)
      ↔ ∃ s ∈ storedEnum n, x = pre ++ s := by
  cases n with
  | val v => simp [scanNode, storedEnum]
  | obj es =>
    rw [show storedEnum (JS.obj es) = storedEnumEnts es from rfl]
    exact scanEntries_mem pre x es

theorem findLoop_mem :
    ∀ (stack : List (JS V × List String)) (ms : List (List String)) (x : List String),
      x ∈ findLoop stack ms
        ↔ x ∈ ms ∨ ∃ np ∈ stack, ∃ s ∈ storedEnum np.1, x = np.2 ++ s := by
  intro stack ms
  induction stack, ms using findLoop.induct with
  | case1 ms =>
    intro x
    simp [findLoop]
  | case2 node pre rest ms ih =>
    intro x
    rw [findLoop, ih x]
    have hsc := scanNode_mem node pre x
    constructor
    · intro h
      rcases h with h1 | h1
      · rcases List.mem_append.mp h1 with h2 | h2
        · exact Or.inl h2
        · exact Or.inr ⟨(node, pre), List.mem_cons_self _ _, hsc.mp (Or.inl h2)⟩
      · obtain ⟨np, hnp, hrest⟩ := h1
        rcases List.mem_append.mp hnp with h2 | h2
        · exact Or.inr ⟨(node, pre), List.mem_cons_self _ _,
            hsc.mp (Or.inr ⟨np, List.mem_reverse.mp h2, hrest⟩)⟩
        · exact Or.inr ⟨np, List.mem_cons_of_mem _ h2, hrest⟩
    · intro h
      rcases h with h1 | h1
      · exact Or.inl (List.mem_append.mpr (Or.inl h1))
      · obtain ⟨np, hnp, hrest⟩ := h1
        rcases List.mem_cons.mp hnp with h2 | h2
        · subst h2
          rcases hsc.mpr hrest with h3 | h3
          · exact Or.inl (List.mem_append.mpr (Or.inr h3))
          · obtain ⟨np2, hnp2, hrest2⟩ := h3
            exact Or.inr ⟨np2,
              List.mem_append.mpr (Or.inl (List.mem_reverse.mpr hnp2)), hrest2⟩
        · exact Or.inr ⟨np, List.mem_append.mpr (Or.inr h2), hrest⟩

end WalkLemmas

section GetPrefixesLemmas

theorem filterOfMap {α β : Type} (f : α → β) (p : β → Bool) (l : List α) :
    (l.map f).filter p = (l.filter fun a => p (f a)).map f := by
  induction l with
  | nil => rfl
  | cons a rest ih =>
    by_cases h : p (f a) = true
    · simp [h, ih]
    · simp [h, ih]

theorem neTakes_cons (tok : String) (rest : List String) :
    neTakes (tok :: rest) = [tok] :: (neTakes rest).map fun q => tok :: q := by
  rw [neTakes, neTakes]
  rw [show (tok :: rest).length = rest.length + 1 from rfl]
  rw [List.range_succ_eq_map]
  rw [List.map_cons, List.map_map, List.map_map]
  congr 1

theorem sentTruthy_eq_storedB_nil {c : JS Bool} (hWF : WFb (fun b => b) c = true) :
    sentTruthy c = storedB c [] := by
  cases c with
  | val v => rfl
  | obj es =>
    rw [show storedB (JS.obj es) [] = keyPresent es SENTINEL from rfl]
    rw [sentTruthy]
    simp only [JS.read]
    cases hl : lookupKey es SENTINEL with
    | none => simp [keyPresent, hl]
    | some x =>
      obtain ⟨v, rfl, hv⟩ := WFb_mem_sentinel hWF (lookupKey_mem hl)
      have hv2 : v = true := hv
      simp [keyPresent, hl, JS.truthy, hv2]

theorem getPrefixesGo_eq :
    ∀ (s : List String) (n : JS Bool) (acc : List String), WFb (fun b => b) n = true →
      getPrefixesGo n acc s
        = ((neTakes s).filter fun q => storedB n q).map fun q => acc ++ q := by
  intro s
  induction s with
  | nil =>
    intro n acc _
    simp [getPrefixesGo, neTakes]
  | cons tok rest ih =>
    intro n acc hWF
    rw [neTakes_cons, List.filter_cons, filterOfMap]
    cases n with
    | val v =>
      rw [show getPrefixesGo (JS.val v) acc (tok :: rest) = [] from rfl]
      simp [storedB_val]
    | obj es =>
      rw [show getPrefixesGo (JS.obj es) acc (tok :: rest)
          = (match JS.read (JS.obj es) tok with
            | none => []
            | some c =>
              (if sentTruthy c then [acc ++ [tok]] else [])
                ++ getPrefixesGo c (acc ++ [tok]) rest) from rfl]
      cases hl : JS.read (JS.obj es) tok with
      | none =>
        simp [storedB, hl]
      | some c =>
        have hWFc : WFb (fun b => b) c = true :=
          WFb_mem_child hWF (lookupKey_mem (by simpa [JS.read] using hl))
        simp only [storedB, hl]
        rw [ih c (acc ++ [tok]) hWFc]
        rw [sentTruthy_eq_storedB_nil hWFc]
        by_cases hst : storedB c [] = true
        · rw [if_pos hst, if_pos hst, List.map_cons, List.map_map, List.singleton_append]
          congr 1
          apply List.map_congr_left
          intro q _
          simp
        · rw [if_neg hst, if_neg hst, List.nil_append, List.map_map]
          apply List.map_congr_left
          intro q _
          simp

end GetPrefixesLemmas

section RunLemmas

variable {V : Type} {tv : V → Bool}

theorem all_ne_sentinel {p : List String}
    (h : (p.all fun tok => tok ≠ SENTINEL) = true) : ∀ tok ∈ p, tok ≠ SENTINEL := by
  intro tok hm
  have := List.all_eq_true.mp h tok hm
  simpa using this

theorem runOps_invariant :
    ∀ (ops : List (Op V)) (t t2 : TrieMap V),
      WFb (fun _ => true) t.root = true → t.size = countT t.root →
      opsSentinelFree ops = true → runOps tv t ops = .ok t2 →
      WFb (fun _ => true) t2.root = true ∧ t2.size = countT t2.root := by
  intro ops
  induction ops with
  | nil =>
    intro t t2 h1 h2 _ hrun
    rw [runOps] at hrun
    cases hrun
    exact ⟨h1, h2⟩
  | cons op rest ih =>
    intro t t2 h1 h2 hsf hrun
    have hsf2 : opsSentinelFree rest = true := by
      rw [opsSentinelFree, List.all_cons, Bool.and_eq_true] at hsf
      exact hsf.2
    have hsfop : (opTokens op).all (fun tok => tok ≠ SENTINEL) = true := by
      rw [opsSentinelFree, List.all_cons, Bool.and_eq_true] at hsf
      exact hsf.1
    rw [runOps] at hrun
    cases happ : applyOp tv t op with
    | error e => rw [happ] at hrun; cases hrun
    | ok t3 =>
      rw [happ] at hrun
      have h3 : WFb (fun _ => true) t3.root = true ∧ t3.size = countT t3.root := by
        cases op with
        | set p v =>
          rw [applyOp, TrieMap.set] at happ
          cases hst : storeCore tv (fun _ => v) t.root p with
          | error e2 => rw [hst] at happ; cases happ
          | ok r =>
            obtain ⟨r1, inc⟩ := r
            rw [hst] at happ
            cases happ
            have hsfp := all_ne_sentinel hsfop
            constructor
            · exact storeCore_WF h1 hsfp (fun _ => rfl) hst
            · have := storeCore_countT hsfp hst
              simp only [this, h2]
        | update p f =>
          rw [applyOp, TrieMap.update] at happ
          cases hst : storeCore tv f t.root p with
          | error e2 => rw [hst] at happ; cases happ
          | ok r =>
            obtain ⟨r1, inc⟩ := r
            rw [hst] at happ
            cases happ
            have hsfp := all_ne_sentinel hsfop
            constructor
            · exact storeCore_WF h1 hsfp (fun _ => rfl) hst
            · have := storeCore_countT hsfp hst
              simp only [this, h2]
        | del p =>
          rw [applyOp] at happ
          rw [show TrieMap.delete t p = .error .referenceError from rfl] at happ
          cases happ
        | clear =>
          rw [applyOp] at happ
          cases happ
          constructor
          · rfl
          · rfl
      exact ih t3 t2 h3.1 h3.2 hsf2 hrun

end RunLemmas

section Claims

/-- C1, counterexample.  The claim says `getPrefixes(s)` returns every
stored prefix of `s`, the empty sequence included when stored.  It does
not: after adding the empty sequence, the root carries a terminal
marker, `has([])` is true and `[]` is a prefix of `["a"]`, yet
`getPrefixes(["a"])` is empty — the loop only tests the nodes entered
for tokens of the query, never the root itself. -/
theorem C1_counterexample_empty_omitted :
    Trie.add (TrieMap.new Bool .string) [] = .ok trieEmptySeq
    ∧ TrieMap.has trieEmptySeq [] = .ok true
    ∧ Trie.getPrefixes trieEmptySeq ["a"] = [] :=
  ⟨rfl, rfl, rfl⟩

/-- C1, amended: on a well-formed trie, `getPrefixes(s)` returns exactly
the stored NONEMPTY prefixes of `s` — the nonempty leading slices of `s`
in increasing length order, filtered by membership — and membership as
computed structurally agrees with `has`.  The shortest-to-longest order
and the early stop are both captured by the equality with the filtered
slice list. -/
theorem C1_getPrefixes_nonempty_exact (t : Trie) (s : List String)
    (hWF : WFb (fun b => b) t.root = true) :
    t.getPrefixes s = ((neTakes s).filter fun q => storedB t.root q)
    ∧ ∀ q : List String, storedB t.root q = true ↔ t.has q = .ok true := by
  constructor
  · rw [Trie.getPrefixes, getPrefixesGo_eq s t.root [] hWF]
    simp
  · intro q
    exact (hasGo_iff_storedB hWF).symm

/-- Witness for the amended C1 on the test trie of trie.test.ts. -/
theorem C1_witness :
    WFb (fun b => b) trieRatRateTar.root = true
    ∧ (Trie.getPrefixes trieRatRateTar (chars "rates")
        = ((neTakes (chars "rates")).filter fun q => storedB trieRatRateTar.root q)
      ∧ ∀ q : List String, storedB trieRatRateTar.root q = true
          ↔ trieRatRateTar.has q = .ok true) :=
  ⟨by decide, C1_getPrefixes_nonempty_exact trieRatRateTar (chars "rates") (by decide)⟩

/-- C2 (code bug).  On the test trie holding `rat`, `rate`, `tar`, the
empty sequence is not stored, so `delete('')` must return false and
leave the trie untouched (trie.test.ts line 77) — but `delete` throws a
ReferenceError on every call: its loop header reads the undeclared
variable `l` (trie-map.js line 133). -/
theorem C2_delete_nonmember_throws :
    TrieMap.has trieRatRateTar [] = .ok false
    ∧ TrieMap.delete trieRatRateTar [] = .error .referenceError :=
  ⟨rfl, rfl⟩

/-- C3 (code bug).  The same trie is produced by the `add` chain of the
test; `rat` is stored, so `delete('rat')` must return true, decrement
`size` and prune (trie.test.ts lines 80-103) — but `delete` throws the
ReferenceError of trie-map.js line 133 before doing anything. -/
theorem C3_delete_member_throws :
    Trie.fromList [chars "rat", chars "rate", chars "tar"] = .ok trieRatRateTar
    ∧ TrieMap.has trieRatRateTar (chars "rat") = .ok true
    ∧ TrieMap.delete trieRatRateTar (chars "rat") = .error .referenceError :=
  ⟨rfl, rfl, rfl⟩

/-- C4 (code bug).  `delete` never reports absence through its boolean
result: it throws a ReferenceError on every trie and every input
(trie-map.js line 133, undeclared `l` in the loop condition). -/
theorem C4_delete_always_throws (W : Type) (t : TrieMap W) (q : List String) :
    TrieMap.delete t q = .error .referenceError :=
  rfl

/-- C5 (code bug).  On the trie of the iteration test (trie.test.ts
lines 216-231), `prefixes()`/`keys()` throw a ReferenceError (assignment
to the undeclared `nodeStack`, trie-map.js line 284), `entries()` throws
a ReferenceError (it reads `prefix` but takes no parameter, lines
339-348), and `values()` returns the generator function itself instead
of invoking it, so its result is not an iterator at all. -/
theorem C5_traversal_broken :
    TrieMap.prefixes trieRatRate none = .error .referenceError
    ∧ TrieMap.entries trieRatRate = .error .referenceError
    ∧ TrieMap.values trieRatRate none = .generatorFunction [trieRatRate.root] :=
  ⟨rfl, rfl, rfl⟩

/-- C6, counterexample.  Adding the one-token sequence consisting of the
sentinel character to a fresh trie gives `size = 1`, yet both the empty
sequence and that one-token sequence test as stored — two distinct
sequences with `has = true` against a size of one, refuting the claimed
equality between `size` and the number of stored sequences. -/
theorem C6_counterexample_sentinel :
    Trie.add (TrieMap.new Bool .string) [SENTINEL] = .ok trieNulToken
    ∧ trieNulToken.size = 1
    ∧ TrieMap.has trieNulToken [] = .ok true
    ∧ TrieMap.has trieNulToken [SENTINEL] = .ok true
    ∧ ([] : List String) ≠ [SENTINEL] :=
  ⟨rfl, rfl, rfl, rfl, by decide⟩

/-- C6, amended: for operation sequences whose tokens avoid the sentinel
and that run to completion (which excludes `delete`: it always throws),
starting from a fresh trie, `size` equals the count of terminal markers,
which equals the number of distinct stored sequences: the structural
enumeration has exactly `size` entries, has no duplicates, and contains
exactly the sequences with `has = ok true`. -/
theorem C6_size_invariant_amended {V : Type} (tv : V → Bool) (m : TrieMode)
    (ops : List (Op V)) (t : TrieMap V)
    (hsf : opsSentinelFree ops = true)
    (hrun : runOps tv (TrieMap.new V m) ops = .ok t) :
    t.size = countT t.root
    ∧ t.size = (storedEnum t.root).length
    ∧ (storedEnum t.root).Nodup
    ∧ ∀ s : List String, s ∈ storedEnum t.root ↔ t.has s = .ok true := by
  have hinv := runOps_invariant ops (TrieMap.new V m) t rfl rfl hsf hrun
  refine ⟨hinv.2, ?_, storedEnum_nodup hinv.1, ?_⟩
  · rw [storedEnum_length]
    exact hinv.2
  · intro s
    rw [storedEnum_mem hinv.1 s]
    exact (hasGo_iff_storedB hinv.1).symm

/-- Witness for the amended C6 on a concrete operation run. -/
theorem C6_witness :
    opsSentinelFree opsSample = true
    ∧ runOps (fun b => b) (TrieMap.new Bool .array) opsSample = .ok trieSampleResult
    ∧ (trieSampleResult.size = countT trieSampleResult.root
      ∧ trieSampleResult.size = (storedEnum trieSampleResult.root).length
      ∧ (storedEnum trieSampleResult.root).Nodup
      ∧ ∀ s : List String, s ∈ storedEnum trieSampleResult.root
          ↔ trieSampleResult.has s = .ok true) :=
  ⟨by decide, rfl,
    C6_size_invariant_amended (fun b => b) .array opsSample trieSampleResult (by decide) rfl⟩

/-- C7.  When an insertion completes, the sequence tests as stored; a
second insertion of the same sequence completes and leaves `size`
unchanged; the map variant replaces the stored value (`get` returns the
new payload); `delete` never succeeds (it always throws, leaving the
trie unreachable by it); and on well-formed states membership survives
any later completed `set` or `update` of any other sequence.  `add` of
trie.ts is exactly `set` with payload `true`, so this covers both
variants. -/
theorem C7_insert_roundtrip {V : Type} (tv pv : V → Bool) (t t2 : TrieMap V)
    (s : List String) (v : V)
    (hset : TrieMap.set tv t s v = .ok t2) :
    TrieMap.has t2 s = .ok true
    ∧ (∀ w : V, ∃ t3, TrieMap.set tv t2 s w = .ok t3 ∧ t3.size = t2.size)
    ∧ TrieMap.get t2 s = .ok (some (JS.val v))
    ∧ (∀ q : List String, TrieMap.delete t2 q = .error .referenceError)
    ∧ (∀ (u : List String) (w : V) (t3 : TrieMap V), WFb pv t2.root = true →
        TrieMap.set tv t2 u w = .ok t3 → TrieMap.has t3 s = .ok true)
    ∧ (∀ (u : List String) (f : Option (JS V) → V) (t3 : TrieMap V), WFb pv t2.root = true →
        TrieMap.update tv t2 u f = .ok t3 → TrieMap.has t3 s = .ok true) := by
  rw [TrieMap.set] at hset
  cases hst : storeCore tv (fun _ => v) t.root s with
  | error e => rw [hst] at hset; cases hset
  | ok r =>
    obtain ⟨r1, inc⟩ := r
    rw [hst] at hset
    cases hset
    have hhas : hasGo r1 s = .ok true := storeCore_ok_has hst
    refine ⟨hhas, ?_, storeCore_ok_get hst, fun _ => rfl, ?_, ?_⟩
    · intro w
      have hex : ∃ n2, storeCore tv (fun _ => w) r1 s = .ok (n2, false) :=
        storeCore_of_has hhas
      obtain ⟨n2, hn2⟩ := hex
      rw [TrieMap.set]
      rw [show ({ t with root := r1, size := t.size + (if inc then 1 else 0) } :
          TrieMap V).root = r1 from rfl]
      rw [hn2]
      exact ⟨_, rfl, by simp⟩
    · intro u w t3 hWF2 hset2
      rw [TrieMap.set] at hset2
      cases hst2 : storeCore tv (fun _ => w)
          ({ t with root := r1, size := t.size + (if inc then 1 else 0) } : TrieMap V).root
          u with
      | error e2 => rw [hst2] at hset2; cases hset2
      | ok r2 =>
        obtain ⟨r3, inc3⟩ := r2
        rw [hst2] at hset2
        cases hset2
        exact storeCore_preserves_has hWF2 hhas hst2
    · intro u f t3 hWF2 hset2
      rw [TrieMap.update] at hset2
      cases hst2 : storeCore tv f
          ({ t with root := r1, size := t.size + (if inc then 1 else 0) } : TrieMap V).root
          u with
      | error e2 => rw [hst2] at hset2; cases hset2
      | ok r2 =>
        obtain ⟨r3, inc3⟩ := r2
        rw [hst2] at hset2
        cases hset2
        exact storeCore_preserves_has hWF2 hhas hst2

/-- Witness for C7 at a concrete insertion. -/
theorem C7_witness :
    TrieMap.set (fun b => b) (TrieMap.new Bool .string) ["a"] true = .ok trieSingleA
    ∧ (TrieMap.has trieSingleA ["a"] = .ok true
      ∧ (∀ w : Bool, ∃ t3, TrieMap.set (fun b => b) trieSingleA ["a"] w = .ok t3
          ∧ t3.size = trieSingleA.size)
      ∧ TrieMap.get trieSingleA ["a"] = .ok (some (JS.val true))
      ∧ (∀ q : List String, TrieMap.delete trieSingleA q = .error .referenceError)
      ∧ (∀ (u : List String) (w : Bool) (t3 : TrieMap Bool),
          WFb (fun _ => true) trieSingleA.root = true →
          TrieMap.set (fun b => b) trieSingleA u w = .ok t3 →
          TrieMap.has t3 ["a"] = .ok true)
      ∧ (∀ (u : List String) (f : Option (JS Bool) → Bool) (t3 : TrieMap Bool),
          WFb (fun _ => true) trieSingleA.root = true →
          TrieMap.update (fun b => b) trieSingleA u f = .ok t3 →
          TrieMap.has t3 ["a"] = .ok true)) :=
  ⟨rfl, C7_insert_roundtrip (fun b => b) (fun _ => true)
    (TrieMap.new Bool .string) trieSingleA ["a"] true rfl⟩

/-- C8.  On a well-formed trie, `find(p)` contains a sequence `x`
exactly when `x` is stored (`has x = ok true`) and has `p` as a literal
prefix; when the node reached by `p` is absent no sequence qualifies and
the result is empty — both directions fall out of the same equivalence. -/
theorem C8_find_exact (t : Trie) (p x : List String)
    (hWF : WFb (fun b => b) t.root = true) :
    x ∈ t.find p ↔ (t.has x = .ok true ∧ ∃ s, x = p ++ s) := by
  rw [Trie.find]
  cases hw : walk t.root p with
  | none =>
    constructor
    · intro h
      cases h
    · rintro ⟨hhas, s, rfl⟩
      have hst : storedB t.root (p ++ s) = true := (hasGo_iff_storedB hWF).mp hhas
      rw [storedB_append p s t.root, hw] at hst
      cases hst
  | some node =>
    have hWFn : WFb (fun b => b) node = true := walk_WF p hWF hw
    rw [findLoop_mem [(node, p)] [] x]
    constructor
    · intro h
      rcases h with h1 | h1
      · cases h1
      · obtain ⟨np, hnp, s, hs, hx⟩ := h1
        obtain rfl : np = (node, p) := List.mem_singleton.mp hnp
        refine ⟨?_, s, hx⟩
        have hst : storedB node s = true := (storedEnum_mem hWFn s).mp hs
        show hasGo t.root x = .ok true
        rw [hasGo_iff_storedB hWF, hx, storedB_append p s t.root, hw]
        exact hst
    · rintro ⟨hhas, s, rfl⟩
      have hst : storedB t.root (p ++ s) = true := (hasGo_iff_storedB hWF).mp hhas
      rw [storedB_append p s t.root, hw] at hst
      exact Or.inr ⟨(node, p), List.mem_singleton.mpr rfl,
        s, (storedEnum_mem hWFn s).mpr hst, rfl⟩

/-- Witness for C8 on the test trie: `rate` is stored with `ra` as a
prefix, and the equivalence holds there. -/
theorem C8_witness :
    WFb (fun b => b) trieRatRateTar.root = true
    ∧ (chars "rate" ∈ trieRatRateTar.find (chars "ra")
      ↔ (trieRatRateTar.has (chars "rate") = .ok true
        ∧ ∃ s, chars "rate" = chars "ra" ++ s)) :=
  ⟨by decide, C8_find_exact trieRatRateTar (chars "ra") (chars "rate") (by decide)⟩

/-- C9.  The sentinel key collides with a real token: on a fresh
string-mode trie, where `has('')` is false, adding the one-character
sequence equal to the sentinel succeeds with `size = 1`, and afterwards
`has('')` returns true even though the empty sequence was never
inserted — membership of distinct sequences is conflated. -/
theorem C9_sentinel_collision :
    TrieMap.has (TrieMap.new Bool .string) [] = .ok false
    ∧ Trie.add (TrieMap.new Bool .string) [SENTINEL] = .ok trieNulToken
    ∧ trieNulToken.size = 1
    ∧ TrieMap.has trieNulToken [] = .ok true :=
  ⟨rfl, rfl, rfl, rfl⟩

/-- C10.  An import specifier that does not start with `~` is returned
unchanged by the expander, whatever the importer path, the case map, the
trie contents and the external path functions are — the early return
fires before any of them is consulted. -/
theorem C10_non_tilde_unchanged (normalize : String → String)
    (joinPath : List String → String) (pcm : Nat → List (String × String))
    (trie : Trie) (importSpecifier importerFilepath : String)
    (h : strStartsWith importSpecifier "~" = false) :
    expandTildeImport normalize joinPath pcm trie importSpecifier importerFilepath
      = .ok importSpecifier := by
  rw [expandTildeImport, if_pos h]

/-- Witness for C10 on a concrete relative specifier. -/
theorem C10_witness :
    (strStartsWith "./foo" "~" = false)
    ∧ expandTildeImport id (String.intercalate "/") (fun _ => [])
        (TrieMap.new Bool .array) "./foo" "/a/b.ts" = .ok "./foo" :=
  ⟨by decide, C10_non_tilde_unchanged id (String.intercalate "/") (fun _ => [])
    (TrieMap.new Bool .array) "./foo" "/a/b.ts" (by decide)⟩

end Claims

end TildeImports
